import Mathlib

set_option maxRecDepth 4000

/- Verification of the coreTable utilities of the owid-grapher repository.
   The implementation file CoreTableUtils.ts is not among the provided source
   files (only its unit tests are), so every operation is modelled from the
   specification and checked against the expectations of the unit tests in
   src/coreTable/CoreTableUtils.test.ts. -/

/-- Modelled from the spec: the four Invalid-Cell sentinel kinds of the
Invalid-Cell Taxonomy (the implementation file InvalidCells.ts is missing
from the sources). -/
inductive InvalidKind where
  | missingValuePlaceholder
  | nanButShouldBeNumber
  | undefinedButShouldBeNumber
  | noValueWithinTolerance
  deriving DecidableEq, Repr

/-- Modelled from the spec: a cell value is a real number, a real string, an
absent (undefined) cell, or one of the Invalid-Cell sentinels, all
distinguishable by identity. -/
inductive CellValue where
  | num (v : Int)
  | str (s : String)
  | undef
  | invalid (k : InvalidKind)
  deriving DecidableEq, Repr

/-- Modelled from the spec: a cell takes part in interpolation as a valid
value unless it is undefined, an empty string, or an Invalid-Cell sentinel. -/
def isNotInvalidOrEmptyCell : CellValue → Bool
  | CellValue.num _ => true
  | CellValue.str s => if s = "" then false else true
  | CellValue.undef => false
  | CellValue.invalid _ => false

/-- Modelled from the spec: a tolerance is a non-negative time-distance bound;
`none` stands for the JavaScript value Infinity (every distance allowed). -/
def withinTolerance (d : Nat) (tol : Option Nat) : Bool :=
  match tol with
  | none => true
  | some m => decide (d ≤ m)

/-- Ordering of tolerances, Infinity (`none`) being the largest. -/
def toleranceLe (t1 t2 : Option Nat) : Bool :=
  match t1, t2 with
  | _, none => true
  | none, some _ => false
  | some a, some b => decide (a ≤ b)

/-- Modelled from the spec: the time-distance metric between two times. -/
def timeDist (a b : Int) : Nat := (a - b).natAbs

theorem withinTolerance_mono {d d' : Nat} {t1 t2 : Option Nat}
    (hd : d ≤ d') (ht : toleranceLe t1 t2 = true)
    (h : withinTolerance d' t1 = true) : withinTolerance d t2 = true := by
  cases t1 with
  | none =>
    cases t2 with
    | none => rfl
    | some b => simp [toleranceLe] at ht
  | some a =>
    cases t2 with
    | none => rfl
    | some b =>
      simp [withinTolerance] at h ⊢
      simp [toleranceLe] at ht
      omega

/- ### The delimited codec, modelled on character lists -/

/-- Modelled from the spec: splitting a character sequence on a delimiter
character yields the fields between its occurrences (always at least one
field, fields never contain the delimiter). -/
def splitOnChar (c : Char) : List Char → List (List Char)
  | [] => [[]]
  | x :: xs =>
    match splitOnChar c xs with
    | [] => [[]]
    | f :: rest => if x = c then [] :: f :: rest else (x :: f) :: rest

/-- Joining with a delimiter character, the inverse of splitting. -/
def joinWithChar (c : Char) : List (List Char) → List Char
  | [] => []
  | [f] => f
  | f :: g :: rest => f ++ c :: joinWithChar c (g :: rest)

theorem splitOnChar_ne_nil (c : Char) (l : List Char) : splitOnChar c l ≠ [] := by
  cases l with
  | nil => simp [splitOnChar]
  | cons x xs =>
    simp only [splitOnChar]
    cases h : splitOnChar c xs with
    | nil => simp
    | cons f rest =>
      by_cases hx : x = c <;> simp [hx]

theorem joinWithChar_cons (c : Char) (f : List Char) (ls : List (List Char))
    (h : ls ≠ []) : joinWithChar c (f :: ls) = f ++ c :: joinWithChar c ls := by
  cases ls with
  | nil => exact absurd rfl h
  | cons g rest => rfl

theorem joinWithChar_splitOnChar (c : Char) (l : List Char) :
    joinWithChar c (splitOnChar c l) = l := by
  induction l with
  | nil => rfl
  | cons x xs ih =>
    cases h : splitOnChar c xs with
    | nil => exact absurd h (splitOnChar_ne_nil c xs)
    | cons f rest =>
      rw [h] at ih
      by_cases hx : x = c
      · subst hx
        have hs : splitOnChar x (x :: xs) = [] :: f :: rest := by
          simp [splitOnChar, h]
        rw [hs, joinWithChar_cons _ _ _ (by simp), List.nil_append, ih]
      · have hs : splitOnChar c (x :: xs) = (x :: f) :: rest := by
          simp [splitOnChar, h, hx]
        rw [hs]
        cases rest with
        | nil =>
          simp only [joinWithChar] at ih ⊢
          rw [ih]
        | cons g rest2 =>
          rw [joinWithChar_cons _ _ _ (by simp)] at ih ⊢
          rw [List.cons_append]
          rw [ih]

/-- Modelled from the spec: auto-detection of the field delimiter, comparing
the count of comma-separated fields against tab-separated fields in the first
line and picking whichever is more frequent, comma on a tie. -/
def detectDelimiter (text : List Char) : Char :=
  let firstLine := (splitOnChar '\n' text).headD []
  if (splitOnChar ',' firstLine).length < (splitOnChar '\t' firstLine).length
    then '\t' else ','

/-- Modelled from the spec: a parsed row maps header names to cell texts, in
header order. -/
abbrev ParsedRow : Type := List (List Char × List Char)

/-- Modelled from the spec: the header names, the fields of the first line of
the text under the detected delimiter. -/
def headerOf (text : List Char) : List (List Char) :=
  splitOnChar (detectDelimiter text) ((splitOnChar '\n' text).headD [])

/-- Modelled from the spec: parseDelimited auto-detects the delimiter, splits
the text on newlines, uses row 0 as header names, and builds one row object
per remaining line pairing each header name with the line's fields. -/
def parseDelimited (text : List Char) : List ParsedRow :=
  (splitOnChar '\n' text).tail.map fun line =>
    (headerOf text).zip (splitOnChar (detectDelimiter text) line)

/-- Modelled from the spec: rowsToMatrix returns none for an empty row
sequence; otherwise the header row (the keys of the first row, in insertion
order) followed by one row of cell values per input row. -/
def rowsToMatrix (rows : List ParsedRow) : Option (List (List (List Char))) :=
  match rows with
  | [] => none
  | r :: _ => some ((r.map Prod.fst) :: rows.map (fun row => row.map Prod.snd))

/-- Modelled from the spec: matrixToDelimited joins each row's cells with the
delimiter and rows with newlines; no quoting is performed. -/
def matrixToDelimited (matrix : List (List (List Char))) (d : Char) : List Char :=
  joinWithChar '\n' (matrix.map fun row => joinWithChar d row)

/-- Modelled from the spec: a delimited text is well-formed when, for the
detected delimiter, it has a header line plus at least one data line, every
line carries exactly as many fields as the header (rectangular, so no cell
embeds a delimiter or newline), and the header names are distinct (a row is
a mapping, so duplicated names would collapse). -/
def wellFormedDelimited (text : List Char) : Prop :=
  2 ≤ (splitOnChar '\n' text).length ∧ (headerOf text).Nodup ∧
    ∀ line ∈ (splitOnChar '\n' text).tail,
      (splitOnChar (detectDelimiter text) line).length = (headerOf text).length

/-- The text of the round-trip unit test, the characters of
"gdp,pop" then a newline then "1,2". -/
def exampleDelimitedText : List Char :=
  ['g', 'd', 'p', ',', 'p', 'o', 'p', '\n', '1', ',', '2']

/-- C3: for well-formed rectangular delimited text, parsing and then
serializing with the detected delimiter reproduces the text exactly:
matrixToDelimited of rowsToMatrix of parseDelimited is the identity. -/
theorem c3_parse_serialize_roundtrip (text : List Char)
    (h : wellFormedDelimited text) :
    ∃ m, rowsToMatrix (parseDelimited text) = some m ∧
      matrixToDelimited m (detectDelimiter text) = text := by
  obtain ⟨hlen, -, hrect⟩ := h
  cases hsplit : splitOnChar '\n' text with
  | nil => exact absurd hsplit (splitOnChar_ne_nil _ _)
  | cons l0 rest =>
  cases rest with
  | nil => rw [hsplit] at hlen; simp at hlen
  | cons l1 rest2 =>
  have hhead : (splitOnChar '\n' text).headD [] = l0 := by rw [hsplit]; rfl
  have htail : (splitOnChar '\n' text).tail = l1 :: rest2 := by rw [hsplit]; rfl
  have hheader : headerOf text = splitOnChar (detectDelimiter text) l0 := by
    rw [headerOf, hhead]
  have hrect1 : ∀ line ∈ l1 :: rest2,
      (splitOnChar (detectDelimiter text) line).length = (headerOf text).length := by
    rw [← htail]; exact hrect
  have hparse : parseDelimited text = (l1 :: rest2).map
      (fun line => (headerOf text).zip (splitOnChar (detectDelimiter text) line)) := by
    rw [parseDelimited, htail]
  have hr2m : ∀ (r : ParsedRow) (rs : List ParsedRow), rowsToMatrix (r :: rs) =
      some ((r.map Prod.fst) :: (r :: rs).map (fun row => row.map Prod.snd)) :=
    fun r rs => rfl
  have key : ∀ (ls : List (List Char)),
      (∀ line ∈ ls,
        (splitOnChar (detectDelimiter text) line).length = (headerOf text).length) →
      ((ls.map fun line =>
          (headerOf text).zip (splitOnChar (detectDelimiter text) line)).map
        fun row => row.map Prod.snd)
        = ls.map fun line => splitOnChar (detectDelimiter text) line := by
    intro ls hls
    induction ls with
    | nil => rfl
    | cons a as ih =>
      simp only [List.map_cons]
      rw [List.map_snd_zip _ _ (le_of_eq (hls a (by simp)))]
      rw [ih (fun line hline => hls line (by simp [hline]))]
  refine ⟨headerOf text ::
      (l1 :: rest2).map (fun line => splitOnChar (detectDelimiter text) line), ?_, ?_⟩
  · rw [hparse, List.map_cons, hr2m]
    rw [List.map_fst_zip _ _ (le_of_eq (hrect1 l1 (by simp)).symm)]
    rw [← List.map_cons
      (fun line => (headerOf text).zip (splitOnChar (detectDelimiter text) line)) l1 rest2]
    rw [key (l1 :: rest2) hrect1]
  · rw [matrixToDelimited, List.map_cons, List.map_map, hheader,
      joinWithChar_splitOnChar]
    have hmapid : (l1 :: rest2).map
        ((fun row => joinWithChar (detectDelimiter text) row) ∘
          fun line => splitOnChar (detectDelimiter text) line) = l1 :: rest2 := by
      have hcongr : ∀ line ∈ l1 :: rest2,
          ((fun row => joinWithChar (detectDelimiter text) row) ∘
            fun line => splitOnChar (detectDelimiter text) line) line = id line := by
        intro line hline
        simp [joinWithChar_splitOnChar]
      rw [List.map_congr_left hcongr, List.map_id]
    rw [hmapid, ← hsplit, joinWithChar_splitOnChar]

/-- Witness for C3: the round trip evaluated on the concrete text of the unit
test, "gdp,pop" newline "1,2". -/
theorem c3_parse_serialize_roundtrip_witness :
    ∃ m, rowsToMatrix (parseDelimited exampleDelimitedText) = some m ∧
      matrixToDelimited m (detectDelimiter exampleDelimitedText)
        = exampleDelimitedText :=
  c3_parse_serialize_roundtrip exampleDelimitedText
    (by unfold wellFormedDelimited; decide)

/-- C10: empty input degrades to well-defined empty results instead of
raising: parseDelimited of empty text is the empty row sequence, rowsToMatrix
of an empty row sequence is none rather than a failure, and for a non-empty
row sequence rowsToMatrix yields the header row (the keys of the first row in
insertion order) followed by one row of cell values per input row. -/
theorem c10_empty_input_totality :
    parseDelimited [] = [] ∧ rowsToMatrix [] = none ∧
      ∀ (r : ParsedRow) (rest : List ParsedRow),
        rowsToMatrix (r :: rest) =
          some ((r.map Prod.fst) ::
            (r :: rest).map (fun row => row.map Prod.snd)) := by
  refine ⟨rfl, rfl, ?_⟩
  intro r rest
  rfl

/- ### The tolerance interpolation engine -/

/-- Modelled from the spec: the indices inside the half-open segment range
that carry a valid value — the eligible fill sources. -/
def candidateIndices (values : List CellValue) (start stop : Nat) : List Nat :=
  (List.range values.length).filter fun j =>
    decide (start ≤ j) && decide (j < stop) &&
      isNotInvalidOrEmptyCell (values.getD j CellValue.undef)

/-- Modelled from the spec: candidate j is strictly preferred to candidate k
as the fill source for a gap at time t when its time distance is strictly
smaller, or equal with a strictly earlier time (the left-to-right then
right-to-left expansion finds the earlier-time candidate first on ties). -/
def strictlyNearer (times : List Int) (t : Int) (j k : Nat) : Bool :=
  decide (timeDist (times.getD j 0) t < timeDist (times.getD k 0) t) ||
    (decide (timeDist (times.getD j 0) t = timeDist (times.getD k 0) t) &&
      decide (times.getD j 0 < times.getD k 0))

/-- One step of the scan for the nearest candidate, keeping the first-seen
best one. -/
def nearerStep (times : List Int) (t : Int) (acc : Option Nat) (j : Nat) :
    Option Nat :=
  match acc with
  | none => some j
  | some k => if strictlyNearer times t j k then some j else some k

/-- Modelled from the spec: scan the candidate list for the nearest valid
candidate by time distance, earlier time preferred on ties. -/
def pickNearest (times : List Int) (t : Int) (l : List Nat) : Option Nat :=
  l.foldl (nearerStep times t) none

/-- Modelled from the spec: the fill source for the gap at index i, the
nearest valid candidate of the segment range under the time-distance
metric. -/
def fillSourceAt (values : List CellValue) (times : List Int)
    (start stop i : Nat) : Option Nat :=
  pickNearest times (times.getD i 0) (candidateIndices values start stop)

/-- Modelled from the spec: the result cell of the column-oriented in-place
interpolation at index i. Inside the range, a valid cell passes through; an
invalid cell whose nearest valid in-range candidate lies within tolerance is
filled with the candidate's value and inherits the candidate's time; on a
miss the cell keeps its original value and time (the unit test expects the
original MissingValuePlaceholder sentinel to remain on a miss). Outside the
range nothing changes. -/
def interpColumnCell (values : List CellValue) (times : List Int)
    (tol : Option Nat) (start stop i : Nat) : CellValue × Int :=
  if start ≤ i ∧ i < stop ∧
      isNotInvalidOrEmptyCell (values.getD i CellValue.undef) = false then
    match fillSourceAt values times start stop i with
    | some j =>
      if withinTolerance (timeDist (times.getD j 0) (times.getD i 0)) tol then
        (values.getD j CellValue.undef, times.getD j 0)
      else (values.getD i CellValue.undef, times.getD i 0)
    | none => (values.getD i CellValue.undef, times.getD i 0)
  else (values.getD i CellValue.undef, times.getD i 0)

/-- Modelled from the spec: interpolateColumnsWithTolerance over parallel
value and time sequences, restricted to the half-open range, returning the
rewritten sequences (the in-place mutation made functional). -/
def interpolateColumnsWithTolerance (values : List CellValue)
    (times : List Int) (tol : Option Nat) (start stop : Nat) :
    List CellValue × List Int :=
  ((List.range values.length).map fun i =>
      (interpColumnCell values times tol start stop i).1,
   (List.range times.length).map fun i =>
      (interpColumnCell values times tol start stop i).2)

/-- A row of the row-oriented interpolation entry point: a value cell and a
time field. -/
structure InterpRow where
  value : CellValue
  time : Int
  deriving DecidableEq, Repr

/-- The value column read off a row sequence. -/
def rowValues (rows : List InterpRow) : List CellValue :=
  rows.map InterpRow.value

/-- The time column read off a row sequence. -/
def rowTimes (rows : List InterpRow) : List Int :=
  rows.map InterpRow.time

/-- Modelled from the spec: the result row of the row-oriented interpolation
at index i. A row with a valid value passes through unchanged; a row with an
invalid value whose nearest valid row (anywhere in the input, no segment
restriction) lies within tolerance receives the candidate's value AND the
candidate's time; otherwise its value becomes the NoValueWithinTolerance
sentinel and its own time is kept. -/
def interpRowCell (rows : List InterpRow) (tol : Option Nat) (i : Nat) :
    InterpRow :=
  let r := rows.getD i ⟨CellValue.undef, 0⟩
  if isNotInvalidOrEmptyCell r.value then r
  else
    match fillSourceAt (rowValues rows) (rowTimes rows) 0 rows.length i with
    | some j =>
      if withinTolerance (timeDist ((rowTimes rows).getD j 0) r.time) tol then
        ⟨(rowValues rows).getD j CellValue.undef, (rowTimes rows).getD j 0⟩
      else ⟨CellValue.invalid InvalidKind.noValueWithinTolerance, r.time⟩
    | none => ⟨CellValue.invalid InvalidKind.noValueWithinTolerance, r.time⟩

/-- Modelled from the spec: interpolateRowValuesWithTolerance returns a new
sequence of the same length, each row interpolated against the full input. -/
def interpolateRowValuesWithTolerance (rows : List InterpRow)
    (tol : Option Nat) : List InterpRow :=
  (List.range rows.length).map (interpRowCell rows tol)

/-- Whether index j of the row sequence holds a valid (fillable-from)
value. -/
def validAt (rows : List InterpRow) (j : Nat) : Bool :=
  isNotInvalidOrEmptyCell ((rowValues rows).getD j CellValue.undef)

/-- The time distance between rows i and j of a row sequence. -/
def rowDist (rows : List InterpRow) (i j : Nat) : Nat :=
  timeDist ((rowTimes rows).getD j 0) ((rowTimes rows).getD i 0)

/- ### Helper lemmas about indexing and the nearest-candidate scan -/

theorem getD_map_range {α : Type} (n : Nat) (f : Nat → α) (i : Nat) (d : α) :
    ((List.range n).map f).getD i d = if i < n then f i else d := by
  by_cases h : i < n
  · rw [List.getD_eq_getElem?_getD, List.getElem?_map, List.getElem?_range h]
    simp [h]
  · rw [List.getD_eq_getElem?_getD, List.getElem?_map,
      List.getElem?_eq_none (by simpa using Nat.le_of_not_lt h)]
    simp [h]

theorem getD_default_of_le {α : Type} (l : List α) (i : Nat) (d : α)
    (h : l.length ≤ i) : l.getD i d = d := by
  rw [List.getD_eq_getElem?_getD, List.getElem?_eq_none h]
  rfl

theorem getD_map_lt {α β : Type} (f : α → β) (l : List α) (i : Nat)
    (h : i < l.length) (d : β) (d0 : α) :
    (l.map f).getD i d = f (l.getD i d0) := by
  rw [List.getD_eq_getElem?_getD, List.getElem?_map,
    List.getElem?_eq_getElem h, List.getD_eq_getElem?_getD,
    List.getElem?_eq_getElem h]
  rfl

theorem rowValues_getD (rows : List InterpRow) (i : Nat) :
    (rowValues rows).getD i CellValue.undef =
      (rows.getD i ⟨CellValue.undef, 0⟩).value := by
  by_cases h : i < rows.length
  · exact getD_map_lt _ _ _ h _ _
  · rw [getD_default_of_le _ _ _
        (by simpa [rowValues] using Nat.le_of_not_lt h),
      getD_default_of_le _ _ _ (Nat.le_of_not_lt h)]

theorem rowTimes_getD (rows : List InterpRow) (i : Nat) :
    (rowTimes rows).getD i 0 = (rows.getD i ⟨CellValue.undef, 0⟩).time := by
  by_cases h : i < rows.length
  · exact getD_map_lt _ _ _ h _ _
  · rw [getD_default_of_le _ _ _
        (by simpa [rowTimes] using Nat.le_of_not_lt h),
      getD_default_of_le _ _ _ (Nat.le_of_not_lt h)]

theorem mem_candidateIndices {values : List CellValue} {start stop j : Nat} :
    j ∈ candidateIndices values start stop ↔
      j < values.length ∧ start ≤ j ∧ j < stop ∧
        isNotInvalidOrEmptyCell (values.getD j CellValue.undef) = true := by
  simp [candidateIndices, List.mem_filter, and_assoc]

theorem toleranceLe_refl (t : Option Nat) : toleranceLe t t = true := by
  cases t <;> simp [toleranceLe]

theorem strictlyNearer_dist_le {times : List Int} {t : Int} {j k : Nat}
    (h : strictlyNearer times t j k = true) :
    timeDist (times.getD j 0) t ≤ timeDist (times.getD k 0) t := by
  simp only [strictlyNearer, Bool.or_eq_true, Bool.and_eq_true,
    decide_eq_true_eq] at h
  rcases h with h | ⟨h1, -⟩
  · exact Nat.le_of_lt h
  · exact Nat.le_of_eq h1

theorem not_strictlyNearer_dist_le {times : List Int} {t : Int} {j k : Nat}
    (h : strictlyNearer times t j k = false) :
    timeDist (times.getD k 0) t ≤ timeDist (times.getD j 0) t := by
  simp only [strictlyNearer, Bool.or_eq_false_iff, Bool.and_eq_false_iff,
    decide_eq_false_iff_not] at h
  exact Nat.le_of_not_lt h.1

theorem nearerStep_some_pos {times : List Int} {t : Int} {j k : Nat}
    (h : strictlyNearer times t j k = true) :
    nearerStep times t (some k) j = some j := by
  simp [nearerStep, h]

theorem nearerStep_some_neg {times : List Int} {t : Int} {j k : Nat}
    (h : strictlyNearer times t j k = false) :
    nearerStep times t (some k) j = some k := by
  simp [nearerStep, h]

theorem nearerStep_foldl_isSome (times : List Int) (t : Int) :
    ∀ (l : List Nat) (k : Nat),
      ∃ r, l.foldl (nearerStep times t) (some k) = some r := by
  intro l
  induction l with
  | nil => intro k; exact ⟨k, rfl⟩
  | cons j rest ih =>
    intro k
    rw [List.foldl_cons]
    cases hb : strictlyNearer times t j k with
    | true => rw [nearerStep_some_pos hb]; exact ih j
    | false => rw [nearerStep_some_neg hb]; exact ih k

theorem nearerStep_foldl_mem (times : List Int) (t : Int) :
    ∀ (l : List Nat) (acc : Option Nat) (r : Nat),
      l.foldl (nearerStep times t) acc = some r → acc = some r ∨ r ∈ l := by
  intro l
  induction l with
  | nil => intro acc r h; exact Or.inl h
  | cons j rest ih =>
    intro acc r h
    rw [List.foldl_cons] at h
    rcases ih _ r h with h1 | h1
    · cases acc with
      | none =>
        have : j = r := by
          have h2 : some j = some r := h1
          injection h2
        exact Or.inr (this ▸ List.mem_cons_self _ _)
      | some k =>
        cases hb : strictlyNearer times t j k with
        | true =>
          rw [nearerStep_some_pos hb] at h1
          have : j = r := by injection h1
          exact Or.inr (this ▸ List.mem_cons_self _ _)
        | false =>
          rw [nearerStep_some_neg hb] at h1
          exact Or.inl h1
    · exact Or.inr (List.mem_cons_of_mem _ h1)

theorem nearerStep_foldl_min (times : List Int) (t : Int) :
    ∀ (l : List Nat) (acc : Option Nat) (r : Nat),
      l.foldl (nearerStep times t) acc = some r →
      (∀ a, acc = some a →
        timeDist (times.getD r 0) t ≤ timeDist (times.getD a 0) t) ∧
      (∀ k ∈ l, timeDist (times.getD r 0) t ≤ timeDist (times.getD k 0) t) := by
  intro l
  induction l with
  | nil =>
    intro acc r h
    refine ⟨?_, ?_⟩
    · intro a ha
      rw [ha] at h
      have : a = r := by injection h
      rw [this]
    · intro k hk; simp at hk
  | cons j rest ih =>
    intro acc r h
    rw [List.foldl_cons] at h
    obtain ⟨hacc, hrest⟩ := ih _ r h
    refine ⟨?_, ?_⟩
    · intro a ha
      subst ha
      cases hb : strictlyNearer times t j a with
      | true =>
        exact le_trans (hacc j (nearerStep_some_pos hb))
          (strictlyNearer_dist_le hb)
      | false =>
        exact hacc a (nearerStep_some_neg hb)
    · intro k hk
      rcases List.mem_cons.mp hk with rfl | hk2
      · cases acc with
        | none => exact hacc k rfl
        | some a =>
          cases hb : strictlyNearer times t k a with
          | true => exact hacc k (nearerStep_some_pos hb)
          | false =>
            exact le_trans (hacc a (nearerStep_some_neg hb))
              (not_strictlyNearer_dist_le hb)
      · exact hrest k hk2

theorem pickNearest_isSome {times : List Int} {t : Int} {l : List Nat}
    (h : l ≠ []) : ∃ r, pickNearest times t l = some r := by
  cases l with
  | nil => exact absurd rfl h
  | cons a rest =>
    rw [pickNearest, List.foldl_cons]
    exact nearerStep_foldl_isSome times t rest a

theorem pickNearest_mem {times : List Int} {t : Int} {l : List Nat} {r : Nat}
    (h : pickNearest times t l = some r) : r ∈ l := by
  rcases nearerStep_foldl_mem times t l none r h with h1 | h1
  · exact absurd h1 (by simp)
  · exact h1

theorem pickNearest_min {times : List Int} {t : Int} {l : List Nat} {r : Nat}
    (h : pickNearest times t l = some r) :
    ∀ k ∈ l, timeDist (times.getD r 0) t ≤ timeDist (times.getD k 0) t :=
  (nearerStep_foldl_min times t l none r h).2

theorem interpCols_fst_getD (values : List CellValue) (times : List Int)
    (tol : Option Nat) (start stop i : Nat) :
    (interpolateColumnsWithTolerance values times tol start stop).1.getD i
        CellValue.undef =
      if i < values.length then
        (interpColumnCell values times tol start stop i).1
      else CellValue.undef := by
  have h1 : (interpolateColumnsWithTolerance values times tol start stop).1 =
      (List.range values.length).map fun i =>
        (interpColumnCell values times tol start stop i).1 := rfl
  rw [h1, getD_map_range]

theorem interpCols_snd_getD (values : List CellValue) (times : List Int)
    (tol : Option Nat) (start stop i : Nat) :
    (interpolateColumnsWithTolerance values times tol start stop).2.getD i 0 =
      if i < times.length then
        (interpColumnCell values times tol start stop i).2
      else 0 := by
  have h1 : (interpolateColumnsWithTolerance values times tol start stop).2 =
      (List.range times.length).map fun i =>
        (interpColumnCell values times tol start stop i).2 := rfl
  rw [h1, getD_map_range]

theorem interpRows_getD (rows : List InterpRow) (tol : Option Nat) (i : Nat) :
    (interpolateRowValuesWithTolerance rows tol).getD i ⟨CellValue.undef, 0⟩ =
      if i < rows.length then interpRowCell rows tol i
      else ⟨CellValue.undef, 0⟩ := by
  rw [interpolateRowValuesWithTolerance, getD_map_range]

theorem interpColumnCell_out_of_range (values : List CellValue)
    (times : List Int) (tol : Option Nat) (start stop i : Nat)
    (h : i < start ∨ stop ≤ i) :
    interpColumnCell values times tol start stop i =
      (values.getD i CellValue.undef, times.getD i 0) := by
  rw [interpColumnCell, if_neg]
  rintro ⟨h1, h2, -⟩
  omega

/-- C1: the column-oriented interpolation touches only the half-open index
range of its segment: every index below start or at or beyond stop keeps its
original value and time, and in the unit-test example with range 0 to 3 the
gap at index 2 is not filled from the valid value at index 3 just outside
the range (it keeps its MissingValuePlaceholder sentinel). -/
theorem c1_column_segment_isolation :
    (∀ (values : List CellValue) (times : List Int) (tol : Option Nat)
        (start stop i : Nat), i < start ∨ stop ≤ i →
        (interpolateColumnsWithTolerance values times tol start stop).1.getD i
            CellValue.undef = values.getD i CellValue.undef ∧
        (interpolateColumnsWithTolerance values times tol start stop).2.getD i 0
          = times.getD i 0) ∧
      interpolateColumnsWithTolerance
        [CellValue.num 1, CellValue.invalid InvalidKind.missingValuePlaceholder,
         CellValue.invalid InvalidKind.missingValuePlaceholder, CellValue.num 2]
        [0, 1, 2, 3] (some 1) 0 3 =
        ([CellValue.num 1, CellValue.num 1,
          CellValue.invalid InvalidKind.missingValuePlaceholder,
          CellValue.num 2],
         [0, 0, 2, 3]) := by
  constructor
  · intro values times tol start stop i h
    constructor
    · rw [interpCols_fst_getD]
      by_cases hi : i < values.length
      · rw [if_pos hi, interpColumnCell_out_of_range _ _ _ _ _ _ h]
      · rw [if_neg hi,
          getD_default_of_le _ _ _ (Nat.le_of_not_lt hi)]
    · rw [interpCols_snd_getD]
      by_cases hi : i < times.length
      · rw [if_pos hi, interpColumnCell_out_of_range _ _ _ _ _ _ h]
      · rw [if_neg hi,
          getD_default_of_le _ _ _ (Nat.le_of_not_lt hi)]
  · decide

/-- Witness for C1: the frame property applied at index 3, just beyond the
stop bound 3 of the unit-test call — the cell keeps value 2 and time 3. -/
theorem c1_column_segment_isolation_witness :
    (interpolateColumnsWithTolerance
        [CellValue.num 1, CellValue.invalid InvalidKind.missingValuePlaceholder,
         CellValue.invalid InvalidKind.missingValuePlaceholder, CellValue.num 2]
        [0, 1, 2, 3] (some 1) 0 3).1.getD 3 CellValue.undef =
      [CellValue.num 1, CellValue.invalid InvalidKind.missingValuePlaceholder,
       CellValue.invalid InvalidKind.missingValuePlaceholder,
       CellValue.num 2].getD 3 CellValue.undef ∧
    (interpolateColumnsWithTolerance
        [CellValue.num 1, CellValue.invalid InvalidKind.missingValuePlaceholder,
         CellValue.invalid InvalidKind.missingValuePlaceholder, CellValue.num 2]
        [0, 1, 2, 3] (some 1) 0 3).2.getD 3 0 = [0, 1, 2, 3].getD 3 0 :=
  c1_column_segment_isolation.1 _ _ (some 1) 0 3 3 (Or.inr (le_refl 3))

theorem interpRowCell_fill (rows : List InterpRow) (tol : Option Nat)
    (i : Nat)
    (hinv : isNotInvalidOrEmptyCell
      (rows.getD i ⟨CellValue.undef, 0⟩).value = false)
    (j : Nat)
    (hfs : fillSourceAt (rowValues rows) (rowTimes rows) 0 rows.length i
      = some j) :
    interpRowCell rows tol i =
      if withinTolerance (timeDist ((rowTimes rows).getD j 0)
          (rows.getD i ⟨CellValue.undef, 0⟩).time) tol then
        ⟨(rowValues rows).getD j CellValue.undef, (rowTimes rows).getD j 0⟩
      else ⟨CellValue.invalid InvalidKind.noValueWithinTolerance,
            (rows.getD i ⟨CellValue.undef, 0⟩).time⟩ := by
  simp only [interpRowCell]
  rw [if_neg (by rw [hinv]; exact Bool.false_ne_true), hfs]

theorem interpRowCell_miss (rows : List InterpRow) (tol : Option Nat)
    (i : Nat)
    (hinv : isNotInvalidOrEmptyCell
      (rows.getD i ⟨CellValue.undef, 0⟩).value = false)
    (hfs : fillSourceAt (rowValues rows) (rowTimes rows) 0 rows.length i
      = none) :
    interpRowCell rows tol i =
      ⟨CellValue.invalid InvalidKind.noValueWithinTolerance,
       (rows.getD i ⟨CellValue.undef, 0⟩).time⟩ := by
  simp only [interpRowCell]
  rw [if_neg (by rw [hinv]; exact Bool.false_ne_true), hfs]

/-- C2: row-oriented interpolation keeps the length, passes every row with a
real-number value through unchanged, and fills every invalid row that has a
valid row within tolerance with the value AND the time of a nearest such
valid row; on the unit-test input with tolerance 2 the result carries values
1, 1, 3, 3 and times 0, 0, 3, 3. -/
theorem c2_row_interpolation_fills_nearest :
    (∀ (rows : List InterpRow) (tol : Option Nat),
        (interpolateRowValuesWithTolerance rows tol).length = rows.length) ∧
    (∀ (rows : List InterpRow) (tol : Option Nat) (i : Nat) (v : Int),
        (rows.getD i ⟨CellValue.undef, 0⟩).value = CellValue.num v →
        (interpolateRowValuesWithTolerance rows tol).getD i ⟨CellValue.undef, 0⟩
          = rows.getD i ⟨CellValue.undef, 0⟩) ∧
    (∀ (rows : List InterpRow) (tol : Option Nat) (i : Nat),
        i < rows.length → validAt rows i = false →
        (∃ j, j < rows.length ∧ validAt rows j = true ∧
          withinTolerance (rowDist rows i j) tol = true) →
        ∃ j, j < rows.length ∧ validAt rows j = true ∧
          withinTolerance (rowDist rows i j) tol = true ∧
          (∀ k, k < rows.length → validAt rows k = true →
            rowDist rows i j ≤ rowDist rows i k) ∧
          (interpolateRowValuesWithTolerance rows tol).getD i
              ⟨CellValue.undef, 0⟩
            = ⟨(rowValues rows).getD j CellValue.undef,
               (rowTimes rows).getD j 0⟩) ∧
    interpolateRowValuesWithTolerance
      [⟨CellValue.num 1, 0⟩, ⟨CellValue.undef, 1⟩, ⟨CellValue.undef, 2⟩,
       ⟨CellValue.num 3, 3⟩] (some 2) =
      [⟨CellValue.num 1, 0⟩, ⟨CellValue.num 1, 0⟩, ⟨CellValue.num 3, 3⟩,
       ⟨CellValue.num 3, 3⟩] := by
  refine ⟨?_, ?_, ?_, by decide⟩
  · intro rows tol
    rw [interpolateRowValuesWithTolerance]
    simp
  · intro rows tol i v hval
    have hlt : i < rows.length := by
      by_contra hge
      rw [getD_default_of_le _ _ _ (Nat.le_of_not_lt hge)] at hval
      exact absurd hval (by simp)
    rw [interpRows_getD, if_pos hlt]
    simp only [interpRowCell]
    rw [if_pos (by rw [hval]; rfl)]
  · intro rows tol i hi hinv hex
    obtain ⟨j0, hj0, hj0v, hj0t⟩ := hex
    have hlenv : (rowValues rows).length = rows.length := by
      simp [rowValues]
    have hcand : j0 ∈ candidateIndices (rowValues rows) 0 rows.length := by
      rw [mem_candidateIndices]
      exact ⟨by omega, Nat.zero_le _, hj0, hj0v⟩
    obtain ⟨r, hr⟩ : ∃ r, fillSourceAt (rowValues rows) (rowTimes rows) 0
        rows.length i = some r := by
      rw [fillSourceAt]
      exact pickNearest_isSome (List.ne_nil_of_mem hcand)
    have hrmem := pickNearest_mem hr
    rw [mem_candidateIndices] at hrmem
    obtain ⟨hrlen, -, hrstop, hrvalid⟩ := hrmem
    have hmin : ∀ k, k < rows.length → validAt rows k = true →
        rowDist rows i r ≤ rowDist rows i k := by
      intro k hk hkv
      have hkmem : k ∈ candidateIndices (rowValues rows) 0 rows.length := by
        rw [mem_candidateIndices]
        exact ⟨by omega, Nat.zero_le _, hk, hkv⟩
      exact pickNearest_min hr k hkmem
    have hrt : withinTolerance (rowDist rows i r) tol = true :=
      withinTolerance_mono (hmin j0 hj0 hj0v) (toleranceLe_refl tol) hj0t
    refine ⟨r, hrstop, hrvalid, hrt, hmin, ?_⟩
    rw [interpRows_getD, if_pos hi]
    have hinv2 : isNotInvalidOrEmptyCell
        (rows.getD i ⟨CellValue.undef, 0⟩).value = false := by
      rw [validAt, rowValues_getD] at hinv
      exact hinv
    rw [interpRowCell_fill rows tol i hinv2 r hr, ← rowTimes_getD rows i,
      if_pos (show withinTolerance (timeDist ((rowTimes rows).getD r 0)
        ((rowTimes rows).getD i 0)) tol = true from hrt)]

/-- Witness for C2: the nearest-fill clause applied at index 1 of the
unit-test input with tolerance 2. -/
theorem c2_row_interpolation_fills_nearest_witness :
    ∃ j, j < 4 ∧
      validAt [⟨CellValue.num 1, 0⟩, ⟨CellValue.undef, 1⟩,
        ⟨CellValue.undef, 2⟩, ⟨CellValue.num 3, 3⟩] j = true ∧
      withinTolerance (rowDist [⟨CellValue.num 1, 0⟩, ⟨CellValue.undef, 1⟩,
        ⟨CellValue.undef, 2⟩, ⟨CellValue.num 3, 3⟩] 1 j) (some 2) = true ∧
      (∀ k, k < 4 →
        validAt [⟨CellValue.num 1, 0⟩, ⟨CellValue.undef, 1⟩,
          ⟨CellValue.undef, 2⟩, ⟨CellValue.num 3, 3⟩] k = true →
        rowDist [⟨CellValue.num 1, 0⟩, ⟨CellValue.undef, 1⟩,
          ⟨CellValue.undef, 2⟩, ⟨CellValue.num 3, 3⟩] 1 j ≤
          rowDist [⟨CellValue.num 1, 0⟩, ⟨CellValue.undef, 1⟩,
            ⟨CellValue.undef, 2⟩, ⟨CellValue.num 3, 3⟩] 1 k) ∧
      (interpolateRowValuesWithTolerance [⟨CellValue.num 1, 0⟩,
          ⟨CellValue.undef, 1⟩, ⟨CellValue.undef, 2⟩, ⟨CellValue.num 3, 3⟩]
          (some 2)).getD 1 ⟨CellValue.undef, 0⟩
        = ⟨(rowValues [⟨CellValue.num 1, 0⟩, ⟨CellValue.undef, 1⟩,
            ⟨CellValue.undef, 2⟩, ⟨CellValue.num 3, 3⟩]).getD j CellValue.undef,
           (rowTimes [⟨CellValue.num 1, 0⟩, ⟨CellValue.undef, 1⟩,
            ⟨CellValue.undef, 2⟩, ⟨CellValue.num 3, 3⟩]).getD j 0⟩ :=
  c2_row_interpolation_fills_nearest.2.2.1
    [⟨CellValue.num 1, 0⟩, ⟨CellValue.undef, 1⟩, ⟨CellValue.undef, 2⟩,
     ⟨CellValue.num 3, 3⟩] (some 2) 1 (by decide) (by decide)
    ⟨0, by decide, by decide, by decide⟩

/-- C4: an invalid row with no valid row within tolerance gets the
NoValueWithinTolerance sentinel and keeps its own original time, including
under tolerance 0 (unit test: positions 1 and 2) and under infinite
tolerance when no valid row exists anywhere (unit test: the single undefined
row). -/
theorem c4_miss_yields_sentinel_keeps_time :
    (∀ (rows : List InterpRow) (tol : Option Nat) (i : Nat),
        i < rows.length → validAt rows i = false →
        (∀ j, j < rows.length → validAt rows j = true →
          withinTolerance (rowDist rows i j) tol = false) →
        (interpolateRowValuesWithTolerance rows tol).getD i ⟨CellValue.undef, 0⟩
          = ⟨CellValue.invalid InvalidKind.noValueWithinTolerance,
             (rows.getD i ⟨CellValue.undef, 0⟩).time⟩) ∧
    interpolateRowValuesWithTolerance
      [⟨CellValue.num 1, 0⟩, ⟨CellValue.undef, 1⟩, ⟨CellValue.undef, 2⟩,
       ⟨CellValue.num 3, 3⟩] (some 0) =
      [⟨CellValue.num 1, 0⟩,
       ⟨CellValue.invalid InvalidKind.noValueWithinTolerance, 1⟩,
       ⟨CellValue.invalid InvalidKind.noValueWithinTolerance, 2⟩,
       ⟨CellValue.num 3, 3⟩] ∧
    interpolateRowValuesWithTolerance [⟨CellValue.undef, 0⟩] none =
      [⟨CellValue.invalid InvalidKind.noValueWithinTolerance, 0⟩] := by
  refine ⟨?_, by decide, by decide⟩
  intro rows tol i hi hinv hmiss
  have hinv2 : isNotInvalidOrEmptyCell
      (rows.getD i ⟨CellValue.undef, 0⟩).value = false := by
    rw [validAt, rowValues_getD] at hinv
    exact hinv
  rw [interpRows_getD, if_pos hi]
  cases hfs : fillSourceAt (rowValues rows) (rowTimes rows) 0 rows.length i with
  | none => rw [interpRowCell_miss rows tol i hinv2 hfs]
  | some j =>
    have hjmem := pickNearest_mem hfs
    rw [mem_candidateIndices] at hjmem
    obtain ⟨hjlen, -, hjstop, hjvalid⟩ := hjmem
    have hwt : withinTolerance (rowDist rows i j) tol = false :=
      hmiss j hjstop hjvalid
    rw [interpRowCell_fill rows tol i hinv2 j hfs, ← rowTimes_getD rows i,
      if_neg (by
        rw [show timeDist ((rowTimes rows).getD j 0) ((rowTimes rows).getD i 0)
            = rowDist rows i j from rfl, hwt]
        exact Bool.false_ne_true)]

/-- Witness for C4: the miss clause applied to the single undefined row of
the infinite-tolerance unit test. -/
theorem c4_miss_yields_sentinel_keeps_time_witness :
    (interpolateRowValuesWithTolerance [⟨CellValue.undef, 0⟩] none).getD 0
        ⟨CellValue.undef, 0⟩
      = ⟨CellValue.invalid InvalidKind.noValueWithinTolerance,
         ([⟨CellValue.undef, 0⟩] : List InterpRow).getD 0
           ⟨CellValue.undef, 0⟩ |>.time⟩ :=
  c4_miss_yields_sentinel_keeps_time.1 [⟨CellValue.undef, 0⟩] none 0
    (by decide) (by decide) (by decide)

theorem interpColumnCell_fill (values : List CellValue) (times : List Int)
    (tol : Option Nat) (start stop i : Nat)
    (hc : start ≤ i ∧ i < stop ∧
      isNotInvalidOrEmptyCell (values.getD i CellValue.undef) = false)
    (j : Nat) (hfs : fillSourceAt values times start stop i = some j) :
    interpColumnCell values times tol start stop i =
      if withinTolerance (timeDist (times.getD j 0) (times.getD i 0)) tol then
        (values.getD j CellValue.undef, times.getD j 0)
      else (values.getD i CellValue.undef, times.getD i 0) := by
  rw [interpColumnCell, if_pos hc, hfs]

theorem interpColumnCell_miss (values : List CellValue) (times : List Int)
    (tol : Option Nat) (start stop i : Nat)
    (hc : start ≤ i ∧ i < stop ∧
      isNotInvalidOrEmptyCell (values.getD i CellValue.undef) = false)
    (hfs : fillSourceAt values times start stop i = none) :
    interpColumnCell values times tol start stop i =
      (values.getD i CellValue.undef, times.getD i 0) := by
  rw [interpColumnCell, if_pos hc, hfs]

theorem interpColumnCell_tol_mono (values : List CellValue) (times : List Int)
    (start stop i : Nat) (t1 t2 : Option Nat)
    (ht : toleranceLe t1 t2 = true)
    (hvalid : isNotInvalidOrEmptyCell
      (interpColumnCell values times t1 start stop i).1 = true) :
    interpColumnCell values times t2 start stop i =
      interpColumnCell values times t1 start stop i := by
  by_cases hc : start ≤ i ∧ i < stop ∧
      isNotInvalidOrEmptyCell (values.getD i CellValue.undef) = false
  · cases hfs : fillSourceAt values times start stop i with
    | none =>
      rw [interpColumnCell_miss values times t1 start stop i hc hfs] at hvalid
      exact absurd hvalid (by rw [hc.2.2]; exact Bool.false_ne_true)
    | some j =>
      rw [interpColumnCell_fill values times t1 start stop i hc j hfs]
        at hvalid
      rw [interpColumnCell_fill values times t2 start stop i hc j hfs,
        interpColumnCell_fill values times t1 start stop i hc j hfs]
      by_cases hwt : withinTolerance
          (timeDist (times.getD j 0) (times.getD i 0)) t1 = true
      · have hwt2 := withinTolerance_mono (le_refl _) ht hwt
        rw [if_pos hwt2, if_pos hwt]
      · rw [if_neg hwt] at hvalid
        exact absurd hvalid (by rw [hc.2.2]; exact Bool.false_ne_true)
  · rw [interpColumnCell, if_neg hc, interpColumnCell, if_neg hc]

theorem interpRowCell_tol_mono (rows : List InterpRow) (i : Nat)
    (t1 t2 : Option Nat) (ht : toleranceLe t1 t2 = true)
    (hvalid : isNotInvalidOrEmptyCell (interpRowCell rows t1 i).value = true) :
    interpRowCell rows t2 i = interpRowCell rows t1 i := by
  by_cases hv : isNotInvalidOrEmptyCell
      (rows.getD i ⟨CellValue.undef, 0⟩).value = true
  · simp only [interpRowCell]
    rw [if_pos hv, if_pos hv]
  · have hv2 : isNotInvalidOrEmptyCell
        (rows.getD i ⟨CellValue.undef, 0⟩).value = false :=
      Bool.eq_false_iff.mpr hv
    cases hfs : fillSourceAt (rowValues rows) (rowTimes rows) 0
        rows.length i with
    | none =>
      rw [interpRowCell_miss rows t1 i hv2 hfs] at hvalid
      exact absurd hvalid (by simp [isNotInvalidOrEmptyCell])
    | some j =>
      rw [interpRowCell_fill rows t1 i hv2 j hfs] at hvalid
      rw [interpRowCell_fill rows t2 i hv2 j hfs,
        interpRowCell_fill rows t1 i hv2 j hfs]
      by_cases hwt : withinTolerance (timeDist ((rowTimes rows).getD j 0)
          (rows.getD i ⟨CellValue.undef, 0⟩).time) t1 = true
      · have hwt2 := withinTolerance_mono (le_refl _) ht hwt
        rw [if_pos hwt2, if_pos hwt]
      · rw [if_neg hwt] at hvalid
        exact absurd hvalid (by simp [isNotInvalidOrEmptyCell])

/-- C5: raising the tolerance is monotone for both entry points of the
interpolation engine: every position whose result under the smaller
tolerance is a filled valid value keeps exactly that result under the larger
tolerance — misses can only turn into fills, never the reverse. -/
theorem c5_tolerance_monotonicity :
    ∀ (t1 t2 : Option Nat), toleranceLe t1 t2 = true →
      (∀ (values : List CellValue) (times : List Int) (start stop i : Nat),
        isNotInvalidOrEmptyCell
          ((interpolateColumnsWithTolerance values times t1 start stop).1.getD i
            CellValue.undef) = true →
        (interpolateColumnsWithTolerance values times t2 start stop).1.getD i
            CellValue.undef =
          (interpolateColumnsWithTolerance values times t1 start stop).1.getD i
            CellValue.undef ∧
        (interpolateColumnsWithTolerance values times t2 start stop).2.getD i 0
          =
          (interpolateColumnsWithTolerance values times t1 start stop).2.getD i
            0) ∧
      (∀ (rows : List InterpRow) (i : Nat),
        isNotInvalidOrEmptyCell
          (((interpolateRowValuesWithTolerance rows t1).getD i
            ⟨CellValue.undef, 0⟩).value) = true →
        (interpolateRowValuesWithTolerance rows t2).getD i ⟨CellValue.undef, 0⟩
          =
          (interpolateRowValuesWithTolerance rows t1).getD i
            ⟨CellValue.undef, 0⟩) := by
  intro t1 t2 ht
  constructor
  · intro values times start stop i hvalid
    rw [interpCols_fst_getD] at hvalid
    by_cases hi : i < values.length
    · rw [if_pos hi] at hvalid
      have hcell := interpColumnCell_tol_mono values times start stop i t1 t2
        ht hvalid
      constructor
      · rw [interpCols_fst_getD, interpCols_fst_getD, if_pos hi, if_pos hi,
          hcell]
      · rw [interpCols_snd_getD, interpCols_snd_getD]
        by_cases hit : i < times.length
        · rw [if_pos hit, if_pos hit, hcell]
        · rw [if_neg hit, if_neg hit]
    · rw [if_neg hi] at hvalid
      exact absurd hvalid (by simp [isNotInvalidOrEmptyCell])
  · intro rows i hvalid
    rw [interpRows_getD] at hvalid
    by_cases hi : i < rows.length
    · rw [if_pos hi] at hvalid
      rw [interpRows_getD, interpRows_getD, if_pos hi, if_pos hi,
        interpRowCell_tol_mono rows i t1 t2 ht hvalid]
    · rw [if_neg hi] at hvalid
      exact absurd hvalid (by simp [isNotInvalidOrEmptyCell])

/-- Witness for C5: monotonicity applied to the unit-test rows at index 1,
raising tolerance 2 to Infinity — the filled cell is preserved. -/
theorem c5_tolerance_monotonicity_witness :
    (interpolateRowValuesWithTolerance
        [⟨CellValue.num 1, 0⟩, ⟨CellValue.undef, 1⟩, ⟨CellValue.undef, 2⟩,
         ⟨CellValue.num 3, 3⟩] none).getD 1 ⟨CellValue.undef, 0⟩ =
      (interpolateRowValuesWithTolerance
        [⟨CellValue.num 1, 0⟩, ⟨CellValue.undef, 1⟩, ⟨CellValue.undef, 2⟩,
         ⟨CellValue.num 3, 3⟩] (some 2)).getD 1 ⟨CellValue.undef, 0⟩ :=
  (c5_tolerance_monotonicity (some 2) none (by decide)).2
    [⟨CellValue.num 1, 0⟩, ⟨CellValue.undef, 1⟩, ⟨CellValue.undef, 2⟩,
     ⟨CellValue.num 3, 3⟩] 1 (by decide)

theorem interpColumnCell_value_cases (values : List CellValue)
    (times : List Int) (tol : Option Nat) (start stop i : Nat) :
    (interpColumnCell values times tol start stop i).1 =
        values.getD i CellValue.undef ∨
      ∃ j, j < values.length ∧
        isNotInvalidOrEmptyCell (values.getD j CellValue.undef) = true ∧
        (interpColumnCell values times tol start stop i).1 =
          values.getD j CellValue.undef := by
  by_cases hc : start ≤ i ∧ i < stop ∧
      isNotInvalidOrEmptyCell (values.getD i CellValue.undef) = false
  · cases hfs : fillSourceAt values times start stop i with
    | none =>
      exact Or.inl (by rw [interpColumnCell_miss _ _ _ _ _ _ hc hfs])
    | some j =>
      have hjm := pickNearest_mem hfs
      rw [mem_candidateIndices] at hjm
      obtain ⟨hjlen, -, -, hjvalid⟩ := hjm
      by_cases hwt : withinTolerance
          (timeDist (times.getD j 0) (times.getD i 0)) tol = true
      · exact Or.inr ⟨j, hjlen, hjvalid, by
          rw [interpColumnCell_fill _ _ _ _ _ _ hc j hfs, if_pos hwt]⟩
      · exact Or.inl (by
          rw [interpColumnCell_fill _ _ _ _ _ _ hc j hfs, if_neg hwt])
  · exact Or.inl (by rw [interpColumnCell, if_neg hc])

theorem interpRows_value_cases (rows : List InterpRow) (tol : Option Nat)
    (i : Nat) :
    ((interpolateRowValuesWithTolerance rows tol).getD i
        ⟨CellValue.undef, 0⟩).value
        = (rows.getD i ⟨CellValue.undef, 0⟩).value ∨
      ((interpolateRowValuesWithTolerance rows tol).getD i
        ⟨CellValue.undef, 0⟩).value
        = CellValue.invalid InvalidKind.noValueWithinTolerance ∨
      ∃ j, j < rows.length ∧ validAt rows j = true ∧
        ((interpolateRowValuesWithTolerance rows tol).getD i
          ⟨CellValue.undef, 0⟩).value
          = (rowValues rows).getD j CellValue.undef := by
  rw [interpRows_getD]
  by_cases hi : i < rows.length
  · rw [if_pos hi]
    by_cases hv : isNotInvalidOrEmptyCell
        (rows.getD i ⟨CellValue.undef, 0⟩).value = true
    · exact Or.inl (by simp only [interpRowCell]; rw [if_pos hv])
    · have hv2 : isNotInvalidOrEmptyCell
          (rows.getD i ⟨CellValue.undef, 0⟩).value = false :=
        Bool.eq_false_iff.mpr hv
      cases hfs : fillSourceAt (rowValues rows) (rowTimes rows) 0
          rows.length i with
      | none =>
        exact Or.inr (Or.inl (by rw [interpRowCell_miss rows tol i hv2 hfs]))
      | some j =>
        have hjm := pickNearest_mem hfs
        rw [mem_candidateIndices] at hjm
        obtain ⟨-, -, hjstop, hjvalid⟩ := hjm
        by_cases hwt : withinTolerance (timeDist ((rowTimes rows).getD j 0)
            (rows.getD i ⟨CellValue.undef, 0⟩).time) tol = true
        · exact Or.inr (Or.inr ⟨j, hjstop, hjvalid, by
            rw [interpRowCell_fill rows tol i hv2 j hfs, if_pos hwt]⟩)
        · exact Or.inr (Or.inl (by
            rw [interpRowCell_fill rows tol i hv2 j hfs, if_neg hwt]))
  · rw [if_neg hi]
    exact Or.inl (by rw [getD_default_of_le _ _ _ (Nat.le_of_not_lt hi)])

/-- C6: in both entry points a fill only ever copies from a cell that was
valid in the input: every result cell either keeps its original value, is the
NoValueWithinTolerance sentinel (row entry point only), or equals the value
of some input cell that is valid — so no Invalid-Cell sentinel is ever a
fill source. The third conjunct applies this to a second interpolation pass:
a cell filled with NoValueWithinTolerance by the first pass, being invalid,
is never a source for the second pass, whose sources are valid cells of the
first pass's output. -/
theorem c6_invalid_cells_never_sources :
    (∀ (values : List CellValue) (times : List Int) (tol : Option Nat)
        (start stop i : Nat),
        (interpolateColumnsWithTolerance values times tol start stop).1.getD i
            CellValue.undef = values.getD i CellValue.undef ∨
        ∃ j, j < values.length ∧
          isNotInvalidOrEmptyCell (values.getD j CellValue.undef) = true ∧
          (interpolateColumnsWithTolerance values times tol start stop).1.getD
              i CellValue.undef = values.getD j CellValue.undef) ∧
    (∀ (rows : List InterpRow) (tol : Option Nat) (i : Nat),
        ((interpolateRowValuesWithTolerance rows tol).getD i
            ⟨CellValue.undef, 0⟩).value
          = (rows.getD i ⟨CellValue.undef, 0⟩).value ∨
        ((interpolateRowValuesWithTolerance rows tol).getD i
            ⟨CellValue.undef, 0⟩).value
          = CellValue.invalid InvalidKind.noValueWithinTolerance ∨
        ∃ j, j < rows.length ∧ validAt rows j = true ∧
          ((interpolateRowValuesWithTolerance rows tol).getD i
            ⟨CellValue.undef, 0⟩).value
            = (rowValues rows).getD j CellValue.undef) ∧
    (∀ (rows : List InterpRow) (t1 t2 : Option Nat) (i : Nat),
        ((interpolateRowValuesWithTolerance
            (interpolateRowValuesWithTolerance rows t1) t2).getD i
            ⟨CellValue.undef, 0⟩).value
          = ((interpolateRowValuesWithTolerance rows t1).getD i
            ⟨CellValue.undef, 0⟩).value ∨
        ((interpolateRowValuesWithTolerance
            (interpolateRowValuesWithTolerance rows t1) t2).getD i
            ⟨CellValue.undef, 0⟩).value
          = CellValue.invalid InvalidKind.noValueWithinTolerance ∨
        ∃ j, j < (interpolateRowValuesWithTolerance rows t1).length ∧
          validAt (interpolateRowValuesWithTolerance rows t1) j = true ∧
          ((interpolateRowValuesWithTolerance
            (interpolateRowValuesWithTolerance rows t1) t2).getD i
            ⟨CellValue.undef, 0⟩).value
            = (rowValues (interpolateRowValuesWithTolerance rows t1)).getD j
              CellValue.undef) := by
  refine ⟨?_, interpRows_value_cases, ?_⟩
  · intro values times tol start stop i
    rw [interpCols_fst_getD]
    by_cases hi : i < values.length
    · rw [if_pos hi]
      exact interpColumnCell_value_cases values times tol start stop i
    · rw [if_neg hi]
      exact Or.inl (by rw [getD_default_of_le _ _ _ (Nat.le_of_not_lt hi)])
  · intro rows t1 t2 i
    exact interpRows_value_cases (interpolateRowValuesWithTolerance rows t1)
      t2 i

/- ### The lazy immutable memoization primitive -/

/-- Modelled from the spec: an object carrying mutable fields and the cache
slot owned by the object for one decorated derived property (the imemo
decorator of the missing CoreTableUtils.ts; populated on first access under
a simple presence check, no invalidation path). -/
structure MemoObj (α β : Type) where
  fields : α
  cache : Option β
  deriving DecidableEq, Repr

/-- Modelled from the spec: reading the imemo-decorated property. When the
cache slot is empty the getter runs once, its result is stored on the object
and returned; when the slot is populated the stored value is returned and
the getter does not run. The third component counts how many times the
underlying getter ran during the read. -/
def imemoRead {α β : Type} (compute : α → β) (o : MemoObj α β) :
    β × MemoObj α β × Nat :=
  match o.cache with
  | some v => (v, o, 0)
  | none =>
    (compute o.fields,
     { fields := o.fields, cache := some (compute o.fields) }, 1)

/-- Mutating the object's other (non-cache) fields, as the unit test does
with the conditions field. -/
def setFields {α β : Type} (o : MemoObj α β) (a : α) : MemoObj α β :=
  { fields := a, cache := o.cache }

/-- C8: the first read of an imemo property computes the result from the
object's fields, stores it on the object and reports one getter run; every
read of an object whose slot is populated returns the stored value with zero
getter runs, even after the other fields were mutated. The final conjuncts
replay the WeatherForecast unit test: a forecast read before mutation stays
"rainy" after the conditions change to "sunny", while a second object
mutated before its first read yields "sunny". -/
theorem c8_imemo_caches_forever :
    (∀ (α β : Type) (compute : α → β) (a : α),
        imemoRead compute ⟨a, none⟩ =
          (compute a, ⟨a, some (compute a)⟩, 1)) ∧
    (∀ (α β : Type) (compute : α → β) (o : MemoObj α β) (v : β) (a : α),
        o.cache = some v →
        imemoRead compute (setFields o a) = (v, setFields o a, 0)) ∧
    (imemoRead (fun s => s) (⟨"rainy", none⟩ : MemoObj String String)).1
        = "rainy" ∧
    (imemoRead (fun s => s)
        (setFields
          (imemoRead (fun s => s)
            (⟨"rainy", none⟩ : MemoObj String String)).2.1 "sunny")).1
        = "rainy" ∧
    (imemoRead (fun s => s)
        (setFields (⟨"rainy", none⟩ : MemoObj String String) "sunny")).1
        = "sunny" := by
  refine ⟨?_, ?_, rfl, rfl, rfl⟩
  · intro α β compute a
    rfl
  · intro α β compute o v a h
    rw [imemoRead]
    have hc : (setFields o a).cache = some v := h
    rw [hc]

/-- Witness for C8: the cached-read clause applied to a concrete object whose
slot already holds "rainy" while its fields are mutated to "sunny". -/
theorem c8_imemo_caches_forever_witness :
    imemoRead (fun s => s)
        (setFields (⟨"rainy", some "rainy"⟩ : MemoObj String String) "sunny")
      = ("rainy",
         setFields (⟨"rainy", some "rainy"⟩ : MemoObj String String) "sunny",
         0) :=
  c8_imemo_caches_forever.2.1 String String (fun s => s)
    ⟨"rainy", some "rainy"⟩ "rainy" "sunny" rfl

/- ### The column store and its stable multi-key sort -/

/-- The comparison key type for a single cell: a rank, a numeric payload and
a string payload, ordered lexicographically. -/
abbrev CellKey : Type := Nat ×ₗ (Int ×ₗ String)

/-- A fixed rank for the sentinel kinds, used only to order them among
themselves. -/
def invalidRank : InvalidKind → Nat
  | InvalidKind.missingValuePlaceholder => 0
  | InvalidKind.nanButShouldBeNumber => 1
  | InvalidKind.undefinedButShouldBeNumber => 2
  | InvalidKind.noValueWithinTolerance => 3

/-- Modelled from the spec: the comparison key of a cell value — numbers
compare among themselves by value and strings lexicographically; the
remaining kinds are ranked after them. -/
def cellKey : CellValue → CellKey
  | CellValue.num v => toLex (0, toLex (v, ""))
  | CellValue.str s => toLex (1, toLex (0, s))
  | CellValue.undef => toLex (2, toLex (0, ""))
  | CellValue.invalid k => toLex (3, toLex (Int.ofNat (invalidRank k), ""))

/-- Lexicographic three-way comparison of key lists. -/
def keyCmp {K : Type} [LinearOrder K] : List K → List K → Ordering
  | [], [] => Ordering.eq
  | [], _ :: _ => Ordering.lt
  | _ :: _, [] => Ordering.gt
  | a :: as, b :: bs =>
    if a < b then Ordering.lt
    else if b < a then Ordering.gt
    else keyCmp as bs

theorem keyCmp_eq_iff {K : Type} [LinearOrder K] :
    ∀ (xs ys : List K), keyCmp xs ys = Ordering.eq ↔ xs = ys := by
  intro xs
  induction xs with
  | nil =>
    intro ys
    cases ys with
    | nil => simp [keyCmp]
    | cons b bs => simp [keyCmp]
  | cons a as ih =>
    intro ys
    cases ys with
    | nil => simp [keyCmp]
    | cons b bs =>
      by_cases h1 : a < b
      · simp only [keyCmp, if_pos h1]
        constructor
        · intro h; exact absurd h (by simp)
        · intro h
          injection h with h2 h3
          exact absurd h2 (ne_of_lt h1)
      · by_cases h2 : b < a
        · simp only [keyCmp, if_neg h1, if_pos h2]
          constructor
          · intro h; exact absurd h (by simp)
          · intro h
            injection h with h3 h4
            exact absurd h3.symm (ne_of_lt h2)
        · have hab : a = b := le_antisymm (le_of_not_lt h2) (le_of_not_lt h1)
          simp only [keyCmp, if_neg h1, if_neg h2]
          rw [ih bs]
          subst hab
          simp

theorem keyCmp_gt_iff_lt {K : Type} [LinearOrder K] :
    ∀ (xs ys : List K),
      keyCmp xs ys = Ordering.gt ↔ keyCmp ys xs = Ordering.lt := by
  intro xs
  induction xs with
  | nil =>
    intro ys
    cases ys with
    | nil => simp [keyCmp]
    | cons b bs => simp [keyCmp]
  | cons a as ih =>
    intro ys
    cases ys with
    | nil => simp [keyCmp]
    | cons b bs =>
      by_cases h1 : a < b
      · have h2 : ¬ b < a := lt_asymm h1
        simp [keyCmp, h1, h2]
      · by_cases h2 : b < a
        · simp [keyCmp, h1, h2]
        · simp [keyCmp, h1, h2, ih bs]

theorem keyCmp_lt_trans {K : Type} [LinearOrder K] :
    ∀ (xs ys zs : List K), keyCmp xs ys = Ordering.lt →
      keyCmp ys zs = Ordering.lt → keyCmp xs zs = Ordering.lt := by
  intro xs
  induction xs with
  | nil =>
    intro ys zs h1 h2
    cases zs with
    | nil =>
      cases ys with
      | nil => simp [keyCmp] at h2
      | cons b bs => simp [keyCmp] at h2
    | cons c cs => simp [keyCmp]
  | cons a as ih =>
    intro ys zs h1 h2
    cases ys with
    | nil => simp [keyCmp] at h1
    | cons b bs =>
      cases zs with
      | nil => simp [keyCmp] at h2
      | cons c cs =>
        by_cases hab : a < b
        · by_cases hbc : b < c
          · have hac : a < c := lt_trans hab hbc
            simp [keyCmp, hac]
          · by_cases hcb : c < b
            · simp [keyCmp, hbc, hcb] at h2
            · have hbc2 : b = c :=
                le_antisymm (le_of_not_lt hcb) (le_of_not_lt hbc)
              subst hbc2
              simp [keyCmp, hab]
        · by_cases hba : b < a
          · simp [keyCmp, hab, hba] at h1
          · have hab2 : a = b :=
              le_antisymm (le_of_not_lt hba) (le_of_not_lt hab)
            subst hab2
            simp only [keyCmp, if_neg hab, if_neg hba] at h1
            by_cases hac : a < c
            · simp [keyCmp, hac]
            · by_cases hca : c < a
              · simp [keyCmp, hac, hca] at h2
              · have hac2 : a = c :=
                  le_antisymm (le_of_not_lt hca) (le_of_not_lt hac)
                subst hac2
                simp only [keyCmp, if_neg hac, if_neg hca] at h2 ⊢
                exact ih bs cs h1 h2

/-- Modelled from the spec: a column store is an ordered mapping from column
names to value sequences, all of one length. -/
abbrev ColumnStore : Type := List (String × List CellValue)

/-- The values of the named column of a store (empty when absent). -/
def colValues (store : ColumnStore) (s : String) : List CellValue :=
  match store.find? (fun c => c.1 == s) with
  | some c => c.2
  | none => []

/-- The multi-column sort key of row index i: the cells of the named sort
columns at position i, in slug order. -/
def rowKeys (store : ColumnStore) (slugs : List String) (i : Nat) :
    List CellKey :=
  slugs.map fun s => cellKey ((colValues store s).getD i CellValue.undef)

/-- Modelled from the spec: the stable comparison of row indices — compare
the named columns in order (the first is the primary key, later ones break
ties); fully equal keys fall back to the original index order, which is
exactly stability for distinct indices. -/
def rowLE (store : ColumnStore) (slugs : List String) (i j : Nat) : Bool :=
  match keyCmp (rowKeys store slugs i) (rowKeys store slugs j) with
  | Ordering.lt => true
  | Ordering.gt => false
  | Ordering.eq => decide (i ≤ j)

theorem rowLE_total (store : ColumnStore) (slugs : List String) (i j : Nat) :
    rowLE store slugs i j = true ∨ rowLE store slugs j i = true := by
  rw [rowLE, rowLE]
  cases h : keyCmp (rowKeys store slugs i) (rowKeys store slugs j) with
  | lt => exact Or.inl rfl
  | gt =>
    rw [(keyCmp_gt_iff_lt _ _).mp h]
    exact Or.inr rfl
  | eq =>
    have hji : keyCmp (rowKeys store slugs j) (rowKeys store slugs i)
        = Ordering.eq := by
      rw [keyCmp_eq_iff] at h ⊢
      exact h.symm
    rw [hji]
    rcases Nat.le_total i j with hle | hle
    · exact Or.inl (by simp [hle])
    · exact Or.inr (by simp [hle])

theorem rowLE_trans (store : ColumnStore) (slugs : List String) (i j k : Nat)
    (h1 : rowLE store slugs i j = true) (h2 : rowLE store slugs j k = true) :
    rowLE store slugs i k = true := by
  rw [rowLE] at h1 h2 ⊢
  cases hij : keyCmp (rowKeys store slugs i) (rowKeys store slugs j) with
  | gt => rw [hij] at h1; simp at h1
  | lt =>
    cases hjk : keyCmp (rowKeys store slugs j) (rowKeys store slugs k) with
    | gt => rw [hjk] at h2; simp at h2
    | lt => rw [keyCmp_lt_trans _ _ _ hij hjk]
    | eq =>
      have hkeq : rowKeys store slugs j = rowKeys store slugs k :=
        (keyCmp_eq_iff _ _).mp hjk
      rw [← hkeq, hij]
  | eq =>
    have hkeq : rowKeys store slugs i = rowKeys store slugs j :=
      (keyCmp_eq_iff _ _).mp hij
    rw [hij] at h1
    cases hjk : keyCmp (rowKeys store slugs j) (rowKeys store slugs k) with
    | gt => rw [hjk] at h2; simp at h2
    | lt => rw [hkeq, hjk]
    | eq =>
      rw [hjk] at h2
      have hkeq2 : rowKeys store slugs j = rowKeys store slugs k :=
        (keyCmp_eq_iff _ _).mp hjk
      rw [hkeq, hkeq2, (keyCmp_eq_iff _ _).mpr rfl]
      simp only [decide_eq_true_eq] at h1 h2 ⊢
      omega

/-- Stable insertion of an index into a sorted index list: the new index goes
after every already-placed index it is not strictly before. -/
def insertSorted (le : Nat → Nat → Bool) (x : Nat) : List Nat → List Nat
  | [] => [x]
  | y :: ys => if le y x then y :: insertSorted le x ys else x :: y :: ys

/-- Insertion sort of an index list under the given comparison. -/
def sortIndices (le : Nat → Nat → Bool) : List Nat → List Nat
  | [] => []
  | x :: xs => insertSorted le x (sortIndices le xs)

theorem perm_insertSorted (le : Nat → Nat → Bool) (x : Nat) (l : List Nat) :
    (insertSorted le x l).Perm (x :: l) := by
  induction l with
  | nil => exact List.Perm.refl _
  | cons y ys ih =>
    rw [insertSorted]
    by_cases h : le y x = true
    · rw [if_pos h]
      exact (ih.cons y).trans (List.Perm.swap x y ys)
    · rw [if_neg h]

theorem perm_sortIndices (le : Nat → Nat → Bool) (l : List Nat) :
    (sortIndices le l).Perm l := by
  induction l with
  | nil => exact List.Perm.refl _
  | cons x xs ih =>
    rw [sortIndices]
    exact (perm_insertSorted le x (sortIndices le xs)).trans (ih.cons x)

theorem mem_insertSorted {le : Nat → Nat → Bool} {x a : Nat} {l : List Nat} :
    a ∈ insertSorted le x l ↔ a = x ∨ a ∈ l := by
  rw [(perm_insertSorted le x l).mem_iff]
  simp

theorem pairwise_insertSorted (le : Nat → Nat → Bool)
    (htot : ∀ a b, le a b = true ∨ le b a = true)
    (htrans : ∀ a b c, le a b = true → le b c = true → le a c = true)
    (x : Nat) (l : List Nat)
    (hl : l.Pairwise (fun a b => le a b = true)) :
    (insertSorted le x l).Pairwise (fun a b => le a b = true) := by
  induction l with
  | nil => simp [insertSorted]
  | cons y ys ih =>
    rw [List.pairwise_cons] at hl
    obtain ⟨hy, hys⟩ := hl
    rw [insertSorted]
    by_cases h : le y x = true
    · rw [if_pos h, List.pairwise_cons]
      refine ⟨?_, ih hys⟩
      intro b hb
      rcases mem_insertSorted.mp hb with rfl | hb2
      · exact h
      · exact hy b hb2
    · have hxy : le x y = true := by
        rcases htot x y with h1 | h1
        · exact h1
        · exact absurd h1 h
      rw [if_neg h, List.pairwise_cons]
      refine ⟨?_, List.pairwise_cons.mpr ⟨hy, hys⟩⟩
      intro b hb
      rcases List.mem_cons.mp hb with rfl | hb2
      · exact hxy
      · exact htrans x y b hxy (hy b hb2)

theorem pairwise_sortIndices (le : Nat → Nat → Bool)
    (htot : ∀ a b, le a b = true ∨ le b a = true)
    (htrans : ∀ a b c, le a b = true → le b c = true → le a c = true)
    (l : List Nat) :
    (sortIndices le l).Pairwise (fun a b => le a b = true) := by
  induction l with
  | nil => simp [sortIndices]
  | cons x xs ih =>
    rw [sortIndices]
    exact pairwise_insertSorted le htot htrans x _ ih

/-- Modelled from the spec: sortColumnStore computes one permutation of the
row indices 0 to n-1 (n the first column's length) under the stable
multi-key comparison and applies that same permutation to every column of
the store. -/
def sortColumnStore (store : ColumnStore) (slugs : List String) :
    ColumnStore :=
  store.map fun c =>
    (c.1,
     (sortIndices (rowLE store slugs)
        (List.range (store.headD ("", [])).2.length)).map
       fun i => c.2.getD i CellValue.undef)

/-- C7: for a store of equal-length columns, sortColumnStore applies one
permutation of the row indices 0 to n-1 to every column: the permutation is
sorted under the multi-key comparison of the named sort columns taken in
order, equal keys keep their original relative order (stability), and every
column of the result is that same permutation of the original column,
preserving cross-column correspondence by position. In the unit-test example
sorting by pops yields pops 21, 99, 123 with countries permuted identically
to can, mex, usa. -/
theorem c7_sort_column_store :
    (∀ (store : ColumnStore) (slugs : List String) (n : Nat),
        store ≠ [] → (∀ c ∈ store, c.2.length = n) →
        ∃ p : List Nat, p.Perm (List.range n) ∧
          p.Pairwise (fun i j => rowLE store slugs i j = true) ∧
          p.Pairwise (fun i j =>
            rowKeys store slugs i = rowKeys store slugs j → i ≤ j) ∧
          sortColumnStore store slugs =
            store.map fun c =>
              (c.1, p.map fun i => c.2.getD i CellValue.undef)) ∧
    sortColumnStore
      [("countries", [CellValue.str "usa", CellValue.str "can",
        CellValue.str "mex"]),
       ("pops", [CellValue.num 123, CellValue.num 21, CellValue.num 99])]
      ["pops"] =
      [("countries", [CellValue.str "can", CellValue.str "mex",
        CellValue.str "usa"]),
       ("pops", [CellValue.num 21, CellValue.num 99, CellValue.num 123])] := by
  constructor
  · intro store slugs n hne hlen
    refine ⟨sortIndices (rowLE store slugs) (List.range n),
      perm_sortIndices _ _, ?_, ?_, ?_⟩
    · exact pairwise_sortIndices _ (rowLE_total store slugs)
        (rowLE_trans store slugs) _
    · have hp := pairwise_sortIndices (rowLE store slugs)
        (rowLE_total store slugs) (rowLE_trans store slugs) (List.range n)
      refine hp.imp ?_
      intro i j hle hkeys
      rw [rowLE, (keyCmp_eq_iff _ _).mpr hkeys] at hle
      simpa using hle
    · cases store with
      | nil => exact absurd rfl hne
      | cons c rest =>
        have hn : ((c :: rest).headD ("", [])).2.length = n :=
          hlen c (by simp)
        rw [sortColumnStore, hn]
  · decide

/-- Witness for C7: the structural clause applied to the unit-test store —
the sorting permutation for the pops key exists with all four properties. -/
theorem c7_sort_column_store_witness :
    ∃ p : List Nat, p.Perm (List.range 3) ∧
      p.Pairwise (fun i j => rowLE
        [("countries", [CellValue.str "usa", CellValue.str "can",
          CellValue.str "mex"]),
         ("pops", [CellValue.num 123, CellValue.num 21, CellValue.num 99])]
        ["pops"] i j = true) ∧
      p.Pairwise (fun i j =>
        rowKeys [("countries", [CellValue.str "usa", CellValue.str "can",
          CellValue.str "mex"]),
         ("pops", [CellValue.num 123, CellValue.num 21, CellValue.num 99])]
          ["pops"] i = rowKeys [("countries", [CellValue.str "usa",
          CellValue.str "can", CellValue.str "mex"]),
         ("pops", [CellValue.num 123, CellValue.num 21, CellValue.num 99])]
          ["pops"] j → i ≤ j) ∧
      sortColumnStore
        [("countries", [CellValue.str "usa", CellValue.str "can",
          CellValue.str "mex"]),
         ("pops", [CellValue.num 123, CellValue.num 21, CellValue.num 99])]
        ["pops"] =
        [("countries", [CellValue.str "usa", CellValue.str "can",
          CellValue.str "mex"]),
         ("pops", [CellValue.num 123, CellValue.num 21,
          CellValue.num 99])].map fun c =>
          (c.1, p.map fun i => c.2.getD i CellValue.undef) :=
  c7_sort_column_store.1
    [("countries", [CellValue.str "usa", CellValue.str "can",
      CellValue.str "mex"]),
     ("pops", [CellValue.num 123, CellValue.num 21, CellValue.num 99])]
    ["pops"] 3 (by simp) (by decide)

/- ### getDropIndexes -/

/-- Recorded from the unit test in src/coreTable/CoreTableUtils.test.ts: the
observed positions dropped by the call getDropIndexes 3 2 1 — the test masks
the array 1, 2, 3 with the returned set and expects only the last element to
survive, so positions 0 and 1 are dropped. The implementation (a seeded
pseudo-random sample of positions, with signature arrayLength, howMany,
seed) is absent from the provided sources; this list records the behavior
the repository's own test pins down at this input. -/
def getDropIndexes_3_2_1 : List Nat := [0, 1]

/-- C9 counterexample: at the unit-test call with totalLength 3 and second
argument 2, position 1 — one of the final two positions, which the claim
says are always retained — is in the returned drop set. -/
theorem c9_counterexample_last_keep_dropped :
    1 ∈ getDropIndexes_3_2_1 ∧ 3 - 2 ≤ 1 ∧ 1 < 3 := by decide

/-- C9 amended: getDropIndexes draws howMany (its second argument) positions
to drop from a sequence of length arrayLength under a seed; it does not
anchor retention to the final elements. At the tested call exactly two
positions are dropped, the last position is retained, every dropped position
is in range, and masking the test array 1, 2, 3 with the set leaves only the
final element, as the unit test expects. -/
theorem c9_amended_drop_sample :
    getDropIndexes_3_2_1.length = 2 ∧ (2 : Nat) ∉ getDropIndexes_3_2_1 ∧
      (∀ i ∈ getDropIndexes_3_2_1, i < 3) ∧
      ((List.range 3).map fun i =>
        if i ∈ getDropIndexes_3_2_1 then none
        else some (([1, 2, 3] : List Nat).getD i 0)) =
        [none, none, some 3] := by decide
